import Mathlib

/-!
Shallow embedding of the `pem` crate (PEM parser/encoder, `src/lib.rs` and
`src/errors.rs`).

Modelling conventions:
* Rust text (`&str` / byte buffers holding UTF-8) is modelled as `List Char`;
  bytes (`u8`) are modelled as `Nat` together with `< 256` bounds where a
  round trip needs them (`as u8` truncations appear as `% 256`).
* The framing regex
  `(?s)-----BEGIN (?P<begin>.*?)-----\s*(?P<data>.*?)-----END (?P<end>.*?)-----\s*`
  is embedded as the equivalent deterministic scanner: under the regex
  crate's leftmost-first semantics with lazy `.*?` groups, the unique match
  (if any) is obtained by scanning for the first `-----BEGIN `, then the
  first following `-----`, then (after the greedy whitespace run) the first
  following `-----END `, then the first following `-----`, then the greedy
  trailing whitespace run.  (If any of those searches fails, no later
  starting position can succeed either, because each required literal
  contains `-----`, so a successful later match would provide exactly the
  occurrence whose absence made the earlier search fail.)
* The base64 collaborator is `rustc_serialize::base64` with
  `Config { line_length: Some(62), ..STANDARD }` for encoding and
  `FromBase64 for str` for decoding; both are embedded faithfully below.
-/

namespace Pemrs

/-- Convenience: the character list of a string literal. -/
def str (s : String) : List Char := s.toList

/-- Characters matched by the regex class `\s` (Unicode `White_Space`),
used by the `\s*` groups of the framing pattern. -/
def rsWhitespace (c : Char) : Bool :=
  c = ' ' ∨ c = '\t' ∨ c = '\n' ∨ c = '\u000B' ∨ c = '\u000C' ∨ c = '\r' ∨
  c = '\u0085' ∨ c = ' ' ∨ c = ' ' ∨
  (' ' ≤ c ∧ c ≤ ' ') ∨ c = ' ' ∨ c = ' ' ∨
  c = ' ' ∨ c = ' ' ∨ c = '　'

/-- The literal `-----BEGIN ` of the framing pattern. -/
def beginMark : List Char :=
  ['-', '-', '-', '-', '-', 'B', 'E', 'G', 'I', 'N', ' ']

/-- The literal `-----END ` of the framing pattern. -/
def endMark : List Char := ['-', '-', '-', '-', '-', 'E', 'N', 'D', ' ']

/-- The delimiter `-----`. -/
def dashes5 : List Char := ['-', '-', '-', '-', '-']

/-- The CRLF line ending used by `encode`. -/
def crlf : List Char := ['\r', '\n']

/-- A representation of Pem-encoded data (struct `Pem`): `tag` is the text
label, `contents` the decoded bytes. -/
structure Pem where
  tag : List Char
  contents : List Nat
deriving DecidableEq

/-- Error payload of `InvalidData`: `rustc_serialize`'s `FromBase64Error`
(`InvalidBase64Byte(byte, offset)` or `InvalidBase64Length`). -/
inductive DecodeError where
  | invalidByte (c : Char) (idx : Nat)
  | invalidLength
deriving DecidableEq

/-- The `pem` error kinds (enum `PemError` in `errors.rs` / the
`error_chain` kinds in `lib.rs`).  `notUtf8` is unreachable in this
character-level model but kept for completeness. -/
inductive PemError where
  | mismatchedTags (b e : List Char)
  | malformedFraming
  | missingBeginTag
  | missingEndTag
  | missingData
  | invalidData (e : DecodeError)
  | notUtf8
deriving DecidableEq

/-! ### The framing matcher -/

/-- First-occurrence search: `splitOnce pat s = some (pre, post)` iff `pat`
occurs in `s`, where `s = pre ++ pat ++ post` and the occurrence is the
leftmost one. -/
def splitOnce (pat : List Char) : List Char → Option (List Char × List Char)
  | [] => if pat = [] then some ([], []) else none
  | c :: t =>
    if pat.isPrefixOf (c :: t) then some ([], (c :: t).drop pat.length)
    else
      match splitOnce pat t with
      | some (pre, post) => some (c :: pre, post)
      | none => none

/-- One raw match of the framing pattern: the three capture groups
`begin`, `data`, `end`. -/
structure Captures where
  beginTag : List Char
  dataRegion : List Char
  endTag : List Char
deriving DecidableEq

/-- The leftmost match of the framing regex in `s` (the regex engine's
`captures`), returning the capture groups together with the remainder of
the input after the match (where `captures_iter` would continue). -/
def findCaptures (s : List Char) : Option (Captures × List Char) :=
  (splitOnce beginMark s).bind fun x =>
    (splitOnce dashes5 x.2).bind fun y =>
      (splitOnce endMark (y.2.dropWhile rsWhitespace)).bind fun z =>
        (splitOnce dashes5 z.2).map fun w =>
          ({ beginTag := y.1, dataRegion := z.1, endTag := w.1 },
            w.2.dropWhile rsWhitespace)

/-! ### The base64 collaborator (rustc_serialize) -/

/-- The standard base64 alphabet (`STANDARD_CHARS`). -/
def STANDARD_CHARS : List Char :=
  ['A', 'B', 'C', 'D', 'E', 'F', 'G', 'H', 'I', 'J', 'K', 'L', 'M',
   'N', 'O', 'P', 'Q', 'R', 'S', 'T', 'U', 'V', 'W', 'X', 'Y', 'Z',
   'a', 'b', 'c', 'd', 'e', 'f', 'g', 'h', 'i', 'j', 'k', 'l', 'm',
   'n', 'o', 'p', 'q', 'r', 's', 't', 'u', 'v', 'w', 'x', 'y', 'z',
   '0', '1', '2', '3', '4', '5', '6', '7', '8', '9', '+', '/']

/-- Character `v` of the standard alphabet. -/
def b64Char (v : Nat) : Char := STANDARD_CHARS.getD v 'A'

/-- Classification of one input character by `from_base64`'s decode match:
a 6-bit value, a skipped newline byte, the padding byte `=`, or an invalid
byte. -/
inductive B64Class where
  | val (v : Nat)
  | newline
  | equals
  | invalid
deriving DecidableEq

/-- The decode table of `from_base64` (accepts both the standard and the
url-safe alphabet, skips `\r`/`\n`, stops at `=`). -/
def b64Lookup (c : Char) : B64Class :=
  if 'A' ≤ c ∧ c ≤ 'Z' then .val (c.toNat - 65)
  else if 'a' ≤ c ∧ c ≤ 'z' then .val (c.toNat - 71)
  else if '0' ≤ c ∧ c ≤ '9' then .val (c.toNat + 4)
  else if c = '+' ∨ c = '-' then .val 62
  else if c = '/' ∨ c = '_' then .val 63
  else if c = '\r' ∨ c = '\n' then .newline
  else if c = '=' then .equals
  else .invalid

/-- After `from_base64` sees `=` it only accepts `=`, `\r`, `\n` in the
rest of the input (`idx` tracks the byte offset for the error payload). -/
def b64TailOk : Nat → List Char → Except DecodeError Unit
  | _, [] => .ok ()
  | idx, c :: t =>
    if c = '=' ∨ c = '\r' ∨ c = '\n' then b64TailOk (idx + 1) t
    else .error (.invalidByte c idx)

/-- Main loop of `from_base64`: accumulate 6-bit values into `buf`
(`buf = (buf | code) << 6`), emitting three bytes per four values;
returns the accumulator together with the final `buf` and `modulus`. -/
def b64Main : List Char → Nat → Nat → Nat → List Nat →
    Except DecodeError (List Nat × Nat × Nat)
  | [], _, buf, modulus, acc => .ok (acc, buf, modulus)
  | c :: t, idx, buf, modulus, acc =>
    match b64Lookup c with
    | .newline => b64Main t (idx + 1) buf modulus acc
    | .equals =>
      match b64TailOk (idx + 1) t with
      | .error e => .error e
      | .ok _ => .ok (acc, buf, modulus)
    | .invalid => .error (.invalidByte c idx)
    | .val v =>
      let buf2 := (buf ||| v) <<< 6
      if modulus + 1 = 4 then
        b64Main t (idx + 1) 0 0
          (acc ++ [(buf2 >>> 22) % 256, (buf2 >>> 14) % 256, (buf2 >>> 6) % 256])
      else b64Main t (idx + 1) buf2 (modulus + 1) acc

/-- Final `match modulus` of `from_base64`: emit the leftover bytes (two
leftover values give one byte, three give two, one is an invalid length). -/
def b64Finish : Except DecodeError (List Nat × Nat × Nat) →
    Except DecodeError (List Nat)
  | .error e => .error e
  | .ok (acc, buf, modulus) =>
    if modulus = 2 then .ok (acc ++ [(buf >>> 10) % 256])
    else if modulus = 3 then .ok (acc ++ [(buf >>> 16) % 256, (buf >>> 8) % 256])
    else if modulus = 0 then .ok acc
    else .error .invalidLength

/-- `rustc_serialize`'s `from_base64`: run the main loop, then emit the
leftover bytes according to `modulus`. -/
def from_base64 (s : List Char) : Except DecodeError (List Nat) :=
  b64Finish (b64Main s 0 0 0 [])

/-- One full group of `to_base64`: three bytes become four characters. -/
def toB64Group3 (a b c : Nat) : List Char :=
  let n := ((a % 256) <<< 16) ||| ((b % 256) <<< 8) ||| (c % 256)
  [b64Char ((n >>> 18) % 64), b64Char ((n >>> 12) % 64),
   b64Char ((n >>> 6) % 64), b64Char (n % 64)]

/-- `rustc_serialize`'s `to_base64` loop with
`Config { line_length: Some(62), newline: CRLF, pad: true, .. }`: a CRLF
is emitted before a group whenever the current line already holds
`curLength ≥ 62` characters (resetting the counter), and the final
partial group is padded with `=`. -/
def toBase64Main : List Nat → Nat → List Char
  | a :: b :: c :: t, cur =>
    if 62 ≤ cur then '\r' :: '\n' :: (toB64Group3 a b c ++ toBase64Main t 4)
    else toB64Group3 a b c ++ toBase64Main t (cur + 4)
  | [a], cur =>
    (if 62 ≤ cur then ['\r', '\n'] else []) ++
      (let n := (a % 256) <<< 16
       [b64Char ((n >>> 18) % 64), b64Char ((n >>> 12) % 64), '=', '='])
  | [a, b], cur =>
    (if 62 ≤ cur then ['\r', '\n'] else []) ++
      (let n := ((a % 256) <<< 16) ||| ((b % 256) <<< 8)
       [b64Char ((n >>> 18) % 64), b64Char ((n >>> 12) % 64),
        b64Char ((n >>> 6) % 64), '='])
  | [], _ => []

/-- `bytes.to_base64(Config { line_length: Some(62), ..STANDARD })`. -/
def to_base64 (xs : List Nat) : List Char := toBase64Main xs 0

/-! ### The section decoder, encoder, and entry points -/

/-- Removal of every occurrence of the character `c`
(`String::replace` with a one-character pattern and empty replacement). -/
def removeAll (c : Char) : List Char → List Char
  | [] => []
  | x :: t => if x = c then removeAll c t else x :: removeAll c t

/-- `Pem::new_from_captures`: validate the begin tag, the end tag, tag
equality, then strip `\n` and spaces from the data region and
base64-decode it.  (The capture groups are always present once the
pattern matched, and tags are already text in this model, so the
`MissingData`/`NotUtf8` paths cannot fire.) -/
def new_from_captures (caps : Captures) : Except PemError Pem :=
  if caps.beginTag = [] then .error .missingBeginTag
  else if caps.endTag = [] then .error .missingEndTag
  else if caps.beginTag ≠ caps.endTag then
    .error (.mismatchedTags caps.beginTag caps.endTag)
  else
    match from_base64 (removeAll ' ' (removeAll '\n' caps.dataRegion)) with
    | .error e => .error (.invalidData e)
    | .ok contents => .ok { tag := caps.beginTag, contents := contents }

/-- `parse`: decode the leftmost framing match, `MalformedFraming` if the
pattern matches nowhere. -/
def parse (input : List Char) : Except PemError Pem :=
  match findCaptures input with
  | none => .error .malformedFraming
  | some (caps, _) => new_from_captures caps

theorem splitOnce_length {pat : List Char} :
    ∀ {s pre post : List Char}, splitOnce pat s = some (pre, post) →
      pre.length + pat.length + post.length = s.length := by
  intro s
  induction s with
  | nil =>
    intro pre post h
    by_cases hp : pat = [] <;> simp [splitOnce, hp] at h
    obtain ⟨rfl, rfl⟩ := h
    simp [hp]
  | cons c t ih =>
    intro pre post h
    by_cases hpre : pat.isPrefixOf (c :: t)
    · simp [splitOnce, hpre] at h
      have hple : pat.length ≤ (c :: t).length :=
        (List.isPrefixOf_iff_prefix.mp hpre).length_le
      obtain ⟨rfl, h2⟩ := h
      have e2 := congrArg List.length h2
      simp [List.length_drop] at e2 hple
      simp
      omega
    · simp only [splitOnce, hpre, if_false] at h
      cases hs : splitOnce pat t with
      | none => rw [hs] at h; exact absurd h (by simp)
      | some pr =>
        rw [hs] at h
        obtain ⟨pre', post'⟩ := pr
        simp at h
        obtain ⟨rfl, rfl⟩ := h
        have := ih hs
        simp
        omega

theorem findCaptures_rest_length {s : List Char} {caps : Captures}
    {rest : List Char} (h : findCaptures s = some (caps, rest)) :
    rest.length < s.length := by
  unfold findCaptures at h
  simp only [Option.bind_eq_some, Option.map_eq_some'] at h
  obtain ⟨⟨p1, a1⟩, h1, ⟨p2, a2⟩, h2, ⟨p3, a3⟩, h3, ⟨p4, a4⟩, h4, h5⟩ := h
  have l1 := splitOnce_length h1
  have l2 := splitOnce_length h2
  have l3 := splitOnce_length h3
  have l4 := splitOnce_length h4
  have d1 : (a2.dropWhile rsWhitespace).length ≤ a2.length :=
    (List.dropWhile_sublist rsWhitespace).length_le
  have d2 : (a4.dropWhile rsWhitespace).length ≤ a4.length :=
    (List.dropWhile_sublist rsWhitespace).length_le
  have hrest : rest = a4.dropWhile rsWhitespace := by
    have := congrArg Prod.snd h5
    simpa using this.symm
  subst hrest
  simp [beginMark, dashes5, endMark] at l1 l2 l3 l4
  omega

/-- Iteration of `parse_many`, with an explicit step bound: each framing
match consumes at least one character, so `s.length + 1` steps always
suffice (`parseManyFuel_congr` below makes the bound irrelevant). -/
def parseManyFuel : Nat → List Char → List Pem
  | 0, _ => []
  | fuel + 1, s =>
    match findCaptures s with
    | none => []
    | some (caps, rest) =>
      match new_from_captures caps with
      | .ok p => p :: parseManyFuel fuel rest
      | .error _ => parseManyFuel fuel rest

/-- `parse_many`: run the decoder on every non-overlapping match of the
framing pattern (`captures_iter`), keeping the successfully decoded
entities in order. -/
def parse_many (s : List Char) : List Pem :=
  parseManyFuel (s.length + 1) s

/-- Iteration of `findAllCaptures` with an explicit step bound. -/
def findAllCapturesFuel : Nat → List Char → List Captures
  | 0, _ => []
  | fuel + 1, s =>
    match findCaptures s with
    | none => []
    | some (caps, rest) => caps :: findAllCapturesFuel fuel rest

/-- All non-overlapping matches of the framing pattern, left to right
(the regex engine's `captures_iter`, before any decoding). -/
def findAllCaptures (s : List Char) : List Captures :=
  findAllCapturesFuel (s.length + 1) s

theorem parseManyFuel_congr :
    ∀ {f1 : Nat} {s : List Char} {f2 : Nat}, s.length < f1 → s.length < f2 →
      parseManyFuel f1 s = parseManyFuel f2 s := by
  intro f1
  induction f1 with
  | zero => intro s f2 h1 _; exact absurd h1 (by omega)
  | succ n ih =>
    intro s f2 h1 h2
    cases f2 with
    | zero => exact absurd h2 (by omega)
    | succ m =>
      rw [parseManyFuel, parseManyFuel]
      cases hf : findCaptures s with
      | none => rfl
      | some pr =>
        obtain ⟨caps, rest⟩ := pr
        have hlt := findCaptures_rest_length hf
        have e := ih (show rest.length < n by omega) (show rest.length < m by omega)
        cases new_from_captures caps <;> simp [e]

theorem findAllCapturesFuel_congr :
    ∀ {f1 : Nat} {s : List Char} {f2 : Nat}, s.length < f1 → s.length < f2 →
      findAllCapturesFuel f1 s = findAllCapturesFuel f2 s := by
  intro f1
  induction f1 with
  | zero => intro s f2 h1 _; exact absurd h1 (by omega)
  | succ n ih =>
    intro s f2 h1 h2
    cases f2 with
    | zero => exact absurd h2 (by omega)
    | succ m =>
      rw [findAllCapturesFuel, findAllCapturesFuel]
      cases hf : findCaptures s with
      | none => rfl
      | some pr =>
        obtain ⟨caps, rest⟩ := pr
        have hlt := findCaptures_rest_length hf
        have e := ih (show rest.length < n by omega) (show rest.length < m by omega)
        simp [e]

/-- `encode`: `-----BEGIN {tag}-----\r\n{base64}\r\n-----END {tag}-----\r\n`,
with an empty data line for empty contents. -/
def encode (p : Pem) : List Char :=
  beginMark ++ p.tag ++ dashes5 ++ crlf ++
    (if p.contents = [] then [] else to_base64 p.contents) ++ crlf ++
    endMark ++ p.tag ++ dashes5 ++ crlf

/-- `encode_many`: encode each entity and join the blocks with `\r\n`. -/
def encode_many (ps : List Pem) : List Char :=
  List.intercalate crlf (ps.map encode)

/-- Whether `pat` occurs as a contiguous substring of `s`. -/
def occursIn (pat s : List Char) : Bool := (splitOnce pat s).isSome

/-! ### Lemmas about the first-occurrence search -/

theorem isPrefixOf_append_self (pat rest : List Char) :
    pat.isPrefixOf (pat ++ rest) = true := by
  simp [List.isPrefixOf_iff_prefix]

theorem splitOnce_here {pat rest : List Char} (hp : pat ≠ []) :
    splitOnce pat (pat ++ rest) = some ([], rest) := by
  obtain ⟨a, pt, rfl⟩ := List.exists_cons_of_ne_nil hp
  have hpre : (a :: pt).isPrefixOf (a :: (pt ++ rest)) = true := by
    have := isPrefixOf_append_self (a :: pt) rest
    rwa [List.cons_append] at this
  rw [List.cons_append, splitOnce, if_pos hpre]
  simp

theorem splitOnce_cons_of_ne {pat : List Char} {c : Char} {t : List Char}
    (h : ¬ pat.isPrefixOf (c :: t) = true) :
    splitOnce pat (c :: t) = (splitOnce pat t).map (fun pr => (c :: pr.1, pr.2)) := by
  rw [splitOnce, if_neg h]
  cases splitOnce pat t with
  | none => rfl
  | some pr => cases pr; rfl

theorem occursIn_cons {pat : List Char} {c : Char} {t : List Char} :
    occursIn pat (c :: t) = (pat.isPrefixOf (c :: t) || occursIn pat t) := by
  by_cases h : pat.isPrefixOf (c :: t) = true
  · simp [occursIn, splitOnce, h]
  · rw [occursIn, splitOnce_cons_of_ne h, Bool.eq_false_iff.mpr h]
    rw [Bool.false_or, occursIn]
    cases splitOnce pat t <;> simp

theorem splitOnce_of_head_notMem {h : Char} {pt : List Char} :
    ∀ {pre rest : List Char}, (∀ c ∈ pre, c ≠ h) →
      splitOnce (h :: pt) (pre ++ (h :: pt) ++ rest) = some (pre, rest) := by
  intro pre
  induction pre with
  | nil =>
    intro rest _
    have h0 : splitOnce (h :: pt) ((h :: pt) ++ rest) = some ([], rest) :=
      splitOnce_here (by simp)
    simpa using h0
  | cons c p' ih =>
    intro rest hall
    have hc : c ≠ h := hall c (by simp)
    have hnp : ¬ (h :: pt).isPrefixOf (c :: (p' ++ (h :: pt) ++ rest)) = true := by
      rw [List.isPrefixOf_cons₂]
      simp
      intro hch
      exact absurd hch.symm hc
    have := splitOnce_cons_of_ne hnp
    rw [List.cons_append, List.cons_append, this,
      ih (fun d hd => hall d (by simp [hd]))]
    rfl

theorem take_append_of_le {n : Nat} {s r : List Char} (h : n ≤ s.length) :
    (s ++ r).take n = s.take n := by
  induction s generalizing n with
  | nil =>
    have : n = 0 := Nat.le_zero.mp (by simpa using h)
    simp [this]
  | cons a t ih =>
    cases n with
    | zero => simp
    | succ m =>
      simp only [List.cons_append, List.take_succ_cons]
      rw [ih (by simpa using h)]

theorem isPrefixOf_append_left {pat s : List Char} (r : List Char)
    (hlen : pat.length ≤ s.length) :
    pat.isPrefixOf (s ++ r) = pat.isPrefixOf s := by
  have h1 : pat.isPrefixOf (s ++ r) = true ↔ pat.isPrefixOf s = true := by
    rw [List.isPrefixOf_iff_prefix, List.isPrefixOf_iff_prefix]
    constructor
    · intro hc
      have ht : (s ++ r).take pat.length = s.take pat.length :=
        take_append_of_le hlen
      rw [List.prefix_iff_eq_take] at hc ⊢
      rw [← ht]
      exact hc
    · intro hc
      exact hc.trans (List.prefix_append s r)
  cases hb : pat.isPrefixOf s
  · cases hb2 : pat.isPrefixOf (s ++ r)
    · rfl
    · have := h1.mp hb2
      rw [hb] at this
      exact absurd this (by simp)
  · exact h1.mpr hb

theorem splitOnce_extend {pat : List Char} (hp : pat ≠ []) :
    ∀ {pre rest : List Char}, splitOnce pat (pre ++ pat) = some (pre, []) →
      splitOnce pat (pre ++ pat ++ rest) = some (pre, rest) := by
  intro pre
  induction pre with
  | nil =>
    intro rest _
    have h0 : splitOnce pat (pat ++ rest) = some ([], rest) := splitOnce_here hp
    simpa using h0
  | cons c p' ih =>
    intro rest h
    by_cases hpre : pat.isPrefixOf ((c :: p') ++ pat) = true
    · rw [List.cons_append] at h
      rw [splitOnce, if_pos (by rwa [List.cons_append] at hpre)] at h
      simp at h
    · have hlen : pat.length ≤ ((c :: p') ++ pat).length := by
        simp
        omega
      have hpre2 : ¬ pat.isPrefixOf ((c :: p') ++ pat ++ rest) = true := by
        rw [isPrefixOf_append_left rest hlen]
        exact hpre
      rw [List.cons_append] at h
      rw [splitOnce_cons_of_ne (by rwa [List.cons_append] at hpre)] at h
      cases hs : splitOnce pat (p' ++ pat) with
      | none => rw [hs] at h; simp at h
      | some pr =>
        rw [hs] at h
        obtain ⟨pp, qq⟩ := pr
        simp at h
        obtain ⟨hpp, hqq⟩ := h
        have ih2 : splitOnce pat (p' ++ pat ++ rest) = some (p', rest) :=
          ih (by rw [hs, hpp, hqq])
        rw [List.cons_append, List.cons_append] at hpre2
        rw [List.cons_append, List.cons_append,
          splitOnce_cons_of_ne hpre2, ih2]
        rfl

theorem splitOnce_dashes_tag :
    ∀ {tag : List Char}, occursIn dashes5 tag = false →
      tag.getLast? ≠ some '-' →
      splitOnce dashes5 (tag ++ dashes5) = some (tag, []) := by
  intro tag
  induction tag with
  | nil =>
    intro _ _
    have h0 : splitOnce dashes5 (dashes5 ++ []) = some ([], []) :=
      splitOnce_here (by simp [dashes5])
    simpa using h0
  | cons c t ih =>
    intro h1 h2
    have hnp : ¬ dashes5.isPrefixOf (c :: (t ++ dashes5)) = true := by
      intro hpre
      rcases t with _ | ⟨c1, _ | ⟨c2, _ | ⟨c3, _ | ⟨c4, t'⟩⟩⟩⟩
      · simp [dashes5, List.isPrefixOf] at hpre
        exact h2 (by simp [hpre.symm])
      · simp [dashes5, List.isPrefixOf] at hpre
        exact h2 (by simp [hpre.2.symm])
      · simp [dashes5, List.isPrefixOf] at hpre
        exact h2 (by simp [hpre.2.2.symm])
      · simp [dashes5, List.isPrefixOf] at hpre
        exact h2 (by simp [hpre.2.2.2.symm])
      · have hocc : occursIn dashes5 (c :: c1 :: c2 :: c3 :: c4 :: t') = true := by
          have hpre2 : dashes5.isPrefixOf (c :: c1 :: c2 :: c3 :: c4 :: t') = true := by
            simp [dashes5, List.isPrefixOf] at hpre ⊢
            exact hpre
          simp [occursIn, splitOnce, hpre2]
        rw [h1] at hocc
        exact absurd hocc (by simp)
    rw [List.cons_append, splitOnce_cons_of_ne hnp]
    have h1' : occursIn dashes5 t = false := by
      have : occursIn dashes5 (c :: t)
          = (dashes5.isPrefixOf (c :: t) || occursIn dashes5 t) := occursIn_cons
      rw [h1] at this
      exact (Bool.or_eq_false_iff.mp this.symm).2
    have h2' : t.getLast? ≠ some '-' := by
      cases t with
      | nil => simp
      | cons d t2 =>
        rw [List.getLast?_cons_cons] at h2
        exact h2
    rw [ih h1' h2']
    rfl

theorem splitOnce_tag_mid {tag : List Char} (rest : List Char)
    (h1 : occursIn dashes5 tag = false) (h2 : tag.getLast? ≠ some '-') :
    splitOnce dashes5 (tag ++ dashes5 ++ rest) = some (tag, rest) :=
  splitOnce_extend (by simp [dashes5]) (splitOnce_dashes_tag h1 h2)

/-! ### Lemmas about whitespace skipping and character removal -/

theorem dropWhile_append_of_all {p : Char → Bool} {ws s : List Char}
    (h : ∀ c ∈ ws, p c = true) :
    (ws ++ s).dropWhile p = s.dropWhile p := by
  induction ws with
  | nil => rfl
  | cons c w ih =>
    rw [List.cons_append, List.dropWhile_cons, if_pos (h c (by simp))]
    exact ih fun d hd => h d (by simp [hd])

theorem dropWhile_cons_of_neg {p : Char → Bool} {c : Char} {t : List Char}
    (h : p c = false) : (c :: t).dropWhile p = c :: t := by
  rw [List.dropWhile_cons, if_neg (by simp [h])]

theorem removeAll_append (c : Char) (s t : List Char) :
    removeAll c (s ++ t) = removeAll c s ++ removeAll c t := by
  induction s with
  | nil => rfl
  | cons a s' ih =>
    by_cases h : a = c <;> simp [removeAll, h, ih]

theorem removeAll_of_notMem {c : Char} {s : List Char}
    (h : ∀ x ∈ s, x ≠ c) : removeAll c s = s := by
  induction s with
  | nil => rfl
  | cons a s' ih =>
    rw [removeAll, if_neg (h a (by simp))]
    rw [ih fun x hx => h x (by simp [hx])]

/-! ### Facts about the base64 alphabet and arithmetic -/

theorem lor_shiftLeft_lt {a b k : Nat} (h : b < 2 ^ k) :
    a <<< k ||| b = a * 2 ^ k + b := by
  rw [Nat.shiftLeft_eq, Nat.mul_comm]
  exact (Nat.mul_add_lt_is_or h a).symm

theorem lor_shl6 {x v : Nat} (h : v < 64) : (x <<< 6) ||| v = x * 64 + v := by
  have := lor_shiftLeft_lt (a := x) (k := 6) (b := v) (by norm_num; omega)
  simpa using this

theorem b64Char_mem (v : Nat) : b64Char v ∈ STANDARD_CHARS := by
  by_cases h : v < 64
  · have hall : ∀ w : Fin 64, b64Char w.val ∈ STANDARD_CHARS := by decide
    exact hall ⟨v, h⟩
  · have hlen : STANDARD_CHARS.length ≤ v := by
      have : STANDARD_CHARS.length = 64 := by decide
      omega
    rw [b64Char, List.getD_eq_default _ _ hlen]
    decide

theorem b64Char_facts (v : Nat) :
    b64Char v ≠ '\n' ∧ b64Char v ≠ '-' ∧ b64Char v ≠ ' ' ∧
      rsWhitespace (b64Char v) = false := by
  have hall : ∀ c ∈ STANDARD_CHARS,
      c ≠ '\n' ∧ c ≠ '-' ∧ c ≠ ' ' ∧ rsWhitespace c = false := by decide
  exact hall _ (b64Char_mem v)

theorem b64Lookup_b64Char {v : Nat} (h : v < 64) : b64Lookup (b64Char v) = .val v := by
  have hall : ∀ w : Fin 64, b64Lookup (b64Char w.val) = .val w.val := by decide
  exact hall ⟨v, h⟩

/-- Induction principle following the three-bytes-at-a-time recursion of
the base64 encoder. -/
theorem threeStepInduction {motive : List Nat → Prop} (h0 : motive [])
    (h1 : ∀ a, motive [a]) (h2 : ∀ a b, motive [a, b])
    (h3 : ∀ a b c t, motive t → motive (a :: b :: c :: t)) :
    ∀ xs, motive xs
  | [] => h0
  | [a] => h1 a
  | [a, b] => h2 a b
  | a :: b :: c :: t => h3 a b c t (threeStepInduction h0 h1 h2 h3 t)

theorem mem_toB64Group3 {a b c : Nat} :
    ∀ x ∈ toB64Group3 a b c, x ∈ STANDARD_CHARS := by
  intro x hx
  simp [toB64Group3] at hx
  rcases hx with h | h | h | h <;> (rw [h]; exact b64Char_mem _)

theorem mem_toBase64Main :
    ∀ (xs : List Nat), ∀ (cur : Nat), ∀ c ∈ toBase64Main xs cur,
      c ∈ STANDARD_CHARS ∨ c = '=' ∨ c = '\r' ∨ c = '\n' := by
  intro xs
  induction xs using threeStepInduction with
  | h0 => intro cur c hc; simp [toBase64Main] at hc
  | h1 a =>
    intro cur c hc
    rw [toBase64Main] at hc
    rcases List.mem_append.mp hc with h | h
    · by_cases h62 : 62 ≤ cur
      · rw [if_pos h62] at h
        simp at h
        rcases h with h | h <;> simp [h]
      · rw [if_neg h62] at h
        simp at h
    · simp at h
      rcases h with h | h | h <;> simp [h, b64Char_mem]
  | h2 a b =>
    intro cur c hc
    rw [toBase64Main] at hc
    rcases List.mem_append.mp hc with h | h
    · by_cases h62 : 62 ≤ cur
      · rw [if_pos h62] at h
        simp at h
        rcases h with h | h <;> simp [h]
      · rw [if_neg h62] at h
        simp at h
    · simp at h
      rcases h with h | h | h | h <;> simp [h, b64Char_mem]
  | h3 a b c t ih =>
    intro cur d hd
    rw [toBase64Main] at hd
    by_cases h62 : 62 ≤ cur
    · rw [if_pos h62] at hd
      simp only [List.mem_cons, List.mem_append] at hd
      rcases hd with h | h | h | h
      · simp [h]
      · simp [h]
      · exact Or.inl (mem_toB64Group3 d h)
      · exact ih _ d h
    · rw [if_neg h62] at hd
      simp only [List.mem_append] at hd
      rcases hd with h | h
      · exact Or.inl (mem_toB64Group3 d h)
      · exact ih _ d h

/-- Every character of a base64 block is either an alphabet character or
one of `=`, CR, LF; in particular never a dash, a space, or (at the head
of a line) other whitespace. -/
theorem toBase64Main_no_dash {xs : List Nat} {cur : Nat} :
    ∀ c ∈ toBase64Main xs cur, c ≠ '-' := by
  intro c hc
  rcases mem_toBase64Main xs cur c hc with h | h | h | h
  · have hall : ∀ c ∈ STANDARD_CHARS, c ≠ '-' := by decide
    exact hall _ h
  all_goals simp [h]

theorem toBase64Main_no_space {xs : List Nat} {cur : Nat} :
    ∀ c ∈ toBase64Main xs cur, c ≠ ' ' := by
  intro c hc
  rcases mem_toBase64Main xs cur c hc with h | h | h | h
  · have hall : ∀ c ∈ STANDARD_CHARS, c ≠ ' ' := by decide
    exact hall _ h
  all_goals simp [h]

/-! ### Decoding a freshly encoded block -/

theorem b64Main_val_step {ch : Char} {v : Nat} (hl : b64Lookup ch = .val v)
    {t : List Char} {idx buf modulus : Nat} {acc : List Nat}
    (hm : modulus + 1 ≠ 4) :
    b64Main (ch :: t) idx buf modulus acc
      = b64Main t (idx + 1) ((buf ||| v) <<< 6) (modulus + 1) acc := by
  simp [b64Main, hl, hm]

theorem b64Main_val_step4 {ch : Char} {v : Nat} (hl : b64Lookup ch = .val v)
    {t : List Char} {idx buf : Nat} {acc : List Nat} :
    b64Main (ch :: t) idx buf 3 acc
      = b64Main t (idx + 1) 0 0
          (acc ++ [(((buf ||| v) <<< 6) >>> 22) % 256,
                   (((buf ||| v) <<< 6) >>> 14) % 256,
                   (((buf ||| v) <<< 6) >>> 6) % 256]) := by
  simp [b64Main, hl]

theorem b64Main_ws_step {ch : Char} (hl : b64Lookup ch = .newline)
    {t : List Char} {idx buf modulus : Nat} {acc : List Nat} :
    b64Main (ch :: t) idx buf modulus acc = b64Main t (idx + 1) buf modulus acc := by
  simp [b64Main, hl]

theorem b64Main_eq_step {t : List Char} {idx buf modulus : Nat} {acc : List Nat}
    (ht : b64TailOk (idx + 1) t = .ok ()) :
    b64Main ('=' :: t) idx buf modulus acc = .ok (acc, buf, modulus) := by
  have hl : b64Lookup '=' = .equals := by decide
  simp [b64Main, hl, ht]

theorem toB64Group3_eq {a b c : Nat} (ha : a < 256) (hb : b < 256) (hc : c < 256) :
    toB64Group3 a b c
      = [b64Char ((a * 65536 + b * 256 + c) / 262144 % 64),
         b64Char ((a * 65536 + b * 256 + c) / 4096 % 64),
         b64Char ((a * 65536 + b * 256 + c) / 64 % 64),
         b64Char ((a * 65536 + b * 256 + c) % 64)] := by
  have hN : ((a % 256) <<< 16) ||| ((b % 256) <<< 8) ||| (c % 256)
      = a * 65536 + b * 256 + c := by
    rw [Nat.mod_eq_of_lt ha, Nat.mod_eq_of_lt hb, Nat.mod_eq_of_lt hc]
    have hb8 : b <<< 8 < 2 ^ 16 := by
      rw [Nat.shiftLeft_eq]
      norm_num
      omega
    have e1 : a <<< 16 ||| b <<< 8 = a * 65536 + b * 256 := by
      rw [lor_shiftLeft_lt hb8, Nat.shiftLeft_eq]
      norm_num
    have e2 : a * 65536 + b * 256 = (a * 256 + b) <<< 8 := by
      rw [Nat.shiftLeft_eq]
      ring
    rw [e1, e2, lor_shiftLeft_lt (show c < 2 ^ 8 by norm_num; omega),
      Nat.shiftLeft_eq]
  simp only [toB64Group3, hN, Nat.shiftRight_eq_div_pow]

theorem b64Main_group {a b c : Nat} (ha : a < 256) (hb : b < 256) (hc : c < 256)
    {rest : List Char} {idx : Nat} {acc : List Nat} :
    b64Main (toB64Group3 a b c ++ rest) idx 0 0 acc
      = b64Main rest (idx + 4) 0 0 (acc ++ [a, b, c]) := by
  rw [toB64Group3_eq ha hb hc]
  have hlt : ∀ m : Nat, (a * 65536 + b * 256 + c) / m % 64 < 64 :=
    fun m => Nat.mod_lt _ (by norm_num)
  have hlt0 : (a * 65536 + b * 256 + c) % 64 < 64 := Nat.mod_lt _ (by norm_num)
  rw [List.cons_append, List.cons_append, List.cons_append, List.cons_append,
    List.nil_append]
  rw [b64Main_val_step (b64Lookup_b64Char (hlt 262144)) (by omega)]
  rw [show (0 : Nat) + 1 = 1 from rfl]
  rw [b64Main_val_step (b64Lookup_b64Char (hlt 4096)) (by omega)]
  rw [show (1 : Nat) + 1 = 2 from rfl]
  rw [b64Main_val_step (b64Lookup_b64Char (hlt 64)) (by omega)]
  rw [show (2 : Nat) + 1 = 3 from rfl]
  rw [b64Main_val_step4 (b64Lookup_b64Char hlt0)]
  rw [show idx + 1 + 1 + 1 + 1 = idx + 4 from by omega]
  have hlist :
      [((((((((0 ||| (a * 65536 + b * 256 + c) / 262144 % 64) <<< 6)
              ||| (a * 65536 + b * 256 + c) / 4096 % 64) <<< 6)
              ||| (a * 65536 + b * 256 + c) / 64 % 64) <<< 6)
              ||| (a * 65536 + b * 256 + c) % 64) <<< 6) >>> 22 % 256,
       ((((((((0 ||| (a * 65536 + b * 256 + c) / 262144 % 64) <<< 6)
              ||| (a * 65536 + b * 256 + c) / 4096 % 64) <<< 6)
              ||| (a * 65536 + b * 256 + c) / 64 % 64) <<< 6)
              ||| (a * 65536 + b * 256 + c) % 64) <<< 6) >>> 14 % 256,
       ((((((((0 ||| (a * 65536 + b * 256 + c) / 262144 % 64) <<< 6)
              ||| (a * 65536 + b * 256 + c) / 4096 % 64) <<< 6)
              ||| (a * 65536 + b * 256 + c) / 64 % 64) <<< 6)
              ||| (a * 65536 + b * 256 + c) % 64) <<< 6) >>> 6 % 256]
        = [a, b, c] := by
    rw [Nat.zero_or, lor_shl6 (hlt 4096), lor_shl6 (hlt 64), lor_shl6 hlt0]
    simp only [Nat.shiftLeft_eq, Nat.shiftRight_eq_div_pow]
    norm_num
    omega
  rw [hlist]

theorem b64Lookup_cr : b64Lookup '\r' = .newline := by decide

theorem toB64Group3_no_lf {a b c : Nat} : ∀ x ∈ toB64Group3 a b c, x ≠ '\n' := by
  intro x hx
  have hall : ∀ y ∈ STANDARD_CHARS, y ≠ '\n' := by decide
  exact hall x (mem_toB64Group3 x hx)

theorem toBase64Main_one {a : Nat} (ha : a < 256) (cur : Nat) :
    toBase64Main [a] cur
      = (if 62 ≤ cur then ['\r', '\n'] else [])
          ++ [b64Char (a / 4), b64Char (a % 4 * 16), '=', '='] := by
  have h1 : ((a % 256) <<< 16 >>> 18) % 64 = a / 4 := by
    rw [Nat.shiftLeft_eq, Nat.shiftRight_eq_div_pow]
    norm_num
    omega
  have h2 : ((a % 256) <<< 16 >>> 12) % 64 = a % 4 * 16 := by
    rw [Nat.shiftLeft_eq, Nat.shiftRight_eq_div_pow]
    norm_num
    omega
  simp only [toBase64Main, h1, h2]

theorem n2_val {a b : Nat} (ha : a < 256) (hb : b < 256) :
    ((a % 256) <<< 16) ||| ((b % 256) <<< 8) = a * 65536 + b * 256 := by
  rw [Nat.mod_eq_of_lt ha, Nat.mod_eq_of_lt hb]
  have hb8 : b <<< 8 < 2 ^ 16 := by
    rw [Nat.shiftLeft_eq]
    norm_num
    omega
  rw [lor_shiftLeft_lt hb8, Nat.shiftLeft_eq]
  norm_num

theorem toBase64Main_two {a b : Nat} (ha : a < 256) (hb : b < 256) (cur : Nat) :
    toBase64Main [a, b] cur
      = (if 62 ≤ cur then ['\r', '\n'] else [])
          ++ [b64Char (a / 4), b64Char (a % 4 * 16 + b / 16),
              b64Char (b % 16 * 4), '='] := by
  have h1 : ((a * 65536 + b * 256) >>> 18) % 64 = a / 4 := by
    rw [Nat.shiftRight_eq_div_pow]
    norm_num
    omega
  have h2 : ((a * 65536 + b * 256) >>> 12) % 64 = a % 4 * 16 + b / 16 := by
    rw [Nat.shiftRight_eq_div_pow]
    norm_num
    omega
  have h3 : ((a * 65536 + b * 256) >>> 6) % 64 = b % 16 * 4 := by
    rw [Nat.shiftRight_eq_div_pow]
    norm_num
    omega
  simp only [toBase64Main, n2_val ha hb, h1, h2, h3]

/-- Decoding a freshly encoded base64 block (with its LF characters already
stripped, as the section decoder does, and followed by the stray CR of the
final CRLF) recovers the original bytes. -/
theorem b64_decode_encode :
    ∀ (xs : List Nat), (∀ x ∈ xs, x < 256) → ∀ (cur idx : Nat) (acc : List Nat),
      b64Finish (b64Main (removeAll '\n' (toBase64Main xs cur) ++ ['\r']) idx 0 0 acc)
        = .ok (acc ++ xs) := by
  intro xs
  induction xs using threeStepInduction with
  | h0 =>
    intro _ cur idx acc
    simp only [toBase64Main, removeAll, List.nil_append]
    rw [b64Main_ws_step b64Lookup_cr]
    simp [b64Main, b64Finish]
  | h1 a =>
    intro hb cur idx acc
    have ha : a < 256 := hb a (by simp)
    rw [toBase64Main_one ha cur, removeAll_append]
    have hv1 : a / 4 < 64 := by omega
    have hv2 : a % 4 * 16 < 64 := by omega
    have hrm : removeAll '\n' [b64Char (a / 4), b64Char (a % 4 * 16), '=', '=']
        = [b64Char (a / 4), b64Char (a % 4 * 16), '=', '='] := by
      apply removeAll_of_notMem
      intro x hx
      simp at hx
      rcases hx with h | h | h
      · rw [h]; exact (b64Char_facts _).1
      · rw [h]; exact (b64Char_facts _).1
      · rw [h]; decide
    rw [hrm]
    have hmain : ∀ j : Nat,
        b64Finish (b64Main
          ([b64Char (a / 4), b64Char (a % 4 * 16), '=', '='] ++ ['\r']) j 0 0 acc)
          = .ok (acc ++ [a]) := by
      intro j
      rw [List.cons_append, List.cons_append, List.cons_append, List.cons_append,
        List.nil_append]
      rw [b64Main_val_step (b64Lookup_b64Char hv1) (by omega)]
      rw [show (0 : Nat) + 1 = 1 from rfl]
      rw [b64Main_val_step (b64Lookup_b64Char hv2) (by omega)]
      rw [show (1 : Nat) + 1 = 2 from rfl]
      rw [b64Main_eq_step (by simp [b64TailOk])]
      rw [b64Finish]
      rw [if_pos rfl]
      rw [Nat.zero_or, lor_shl6 hv2, Nat.shiftLeft_eq, Nat.shiftRight_eq_div_pow]
      norm_num
      omega
    by_cases h62 : 62 ≤ cur
    · rw [if_pos h62]
      rw [show removeAll '\n' ['\r', '\n'] = ['\r'] from by decide]
      rw [List.cons_append, List.cons_append, List.nil_append]
      rw [b64Main_ws_step b64Lookup_cr]
      exact hmain (idx + 1)
    · rw [if_neg h62]
      rw [show removeAll '\n' [] = [] from rfl, List.nil_append]
      exact hmain idx
  | h2 a b =>
    intro hball cur idx acc
    have ha : a < 256 := hball a (by simp)
    have hb : b < 256 := hball b (by simp)
    rw [toBase64Main_two ha hb cur, removeAll_append]
    have hv1 : a / 4 < 64 := by omega
    have hv2 : a % 4 * 16 + b / 16 < 64 := by omega
    have hv3 : b % 16 * 4 < 64 := by omega
    have hrm : removeAll '\n'
        [b64Char (a / 4), b64Char (a % 4 * 16 + b / 16), b64Char (b % 16 * 4), '=']
        = [b64Char (a / 4), b64Char (a % 4 * 16 + b / 16), b64Char (b % 16 * 4), '='] := by
      apply removeAll_of_notMem
      intro x hx
      simp at hx
      rcases hx with h | h | h | h
      · rw [h]; exact (b64Char_facts _).1
      · rw [h]; exact (b64Char_facts _).1
      · rw [h]; exact (b64Char_facts _).1
      · rw [h]; decide
    rw [hrm]
    have hmain : ∀ j : Nat,
        b64Finish (b64Main
          ([b64Char (a / 4), b64Char (a % 4 * 16 + b / 16),
            b64Char (b % 16 * 4), '='] ++ ['\r']) j 0 0 acc)
          = .ok (acc ++ [a, b]) := by
      intro j
      rw [List.cons_append, List.cons_append, List.cons_append, List.cons_append,
        List.nil_append]
      rw [b64Main_val_step (b64Lookup_b64Char hv1) (by omega)]
      rw [show (0 : Nat) + 1 = 1 from rfl]
      rw [b64Main_val_step (b64Lookup_b64Char hv2) (by omega)]
      rw [show (1 : Nat) + 1 = 2 from rfl]
      rw [b64Main_val_step (b64Lookup_b64Char hv3) (by omega)]
      rw [show (2 : Nat) + 1 = 3 from rfl]
      rw [b64Main_eq_step (by simp [b64TailOk])]
      rw [b64Finish]
      rw [if_neg (by omega), if_pos rfl]
      rw [Nat.zero_or, lor_shl6 hv2, lor_shl6 hv3, Nat.shiftLeft_eq,
        Nat.shiftRight_eq_div_pow, Nat.shiftRight_eq_div_pow]
      norm_num
      constructor <;> omega
    by_cases h62 : 62 ≤ cur
    · rw [if_pos h62]
      rw [show removeAll '\n' ['\r', '\n'] = ['\r'] from by decide]
      rw [List.cons_append, List.cons_append, List.nil_append]
      rw [b64Main_ws_step b64Lookup_cr]
      exact hmain (idx + 1)
    · rw [if_neg h62]
      rw [show removeAll '\n' [] = [] from rfl, List.nil_append]
      exact hmain idx
  | h3 a b c t ih =>
    intro hball cur idx acc
    have ha : a < 256 := hball a (by simp)
    have hb : b < 256 := hball b (by simp)
    have hc : c < 256 := hball c (by simp)
    have hbt : ∀ x ∈ t, x < 256 := fun x hx => hball x (by simp [hx])
    have hrmg : removeAll '\n' (toB64Group3 a b c) = toB64Group3 a b c :=
      removeAll_of_notMem toB64Group3_no_lf
    rw [toBase64Main]
    by_cases h62 : 62 ≤ cur
    · rw [if_pos h62]
      rw [show ∀ z, removeAll '\n' ('\r' :: '\n' :: z) = '\r' :: removeAll '\n' z
        from fun z => by simp [removeAll]]
      rw [removeAll_append, hrmg]
      rw [List.cons_append, b64Main_ws_step b64Lookup_cr]
      rw [List.append_assoc, b64Main_group ha hb hc]
      rw [ih hbt 4 (idx + 1 + 4) (acc ++ [a, b, c])]
      simp
    · rw [if_neg h62]
      rw [removeAll_append, hrmg]
      rw [List.append_assoc, b64Main_group ha hb hc]
      rw [ih hbt (cur + 4) (idx + 4) (acc ++ [a, b, c])]
      simp

/-! ### The framing matcher on an encoded block -/

theorem splitOnce_tag_mid2 {tag : List Char} (rest : List Char)
    (h1 : occursIn dashes5 tag = false) (h2 : tag.getLast? ≠ some '-') :
    splitOnce dashes5 (tag ++ (dashes5 ++ rest)) = some (tag, rest) := by
  rw [← List.append_assoc]
  exact splitOnce_tag_mid rest h1 h2

theorem splitOnce_head_notMem2 {h : Char} {pt : List Char} {pre rest : List Char}
    (hall : ∀ c ∈ pre, c ≠ h) :
    splitOnce (h :: pt) (pre ++ ((h :: pt) ++ rest)) = some (pre, rest) := by
  rw [← List.append_assoc]
  exact splitOnce_of_head_notMem hall

theorem toBase64Main_zero_head (xs : List Nat) (h : xs ≠ []) :
    ∃ v t, toBase64Main xs 0 = b64Char v :: t := by
  rcases xs with _ | ⟨a, _ | ⟨b, _ | ⟨c, t⟩⟩⟩
  · exact absurd rfl h
  · exact ⟨_, _, rfl⟩
  · exact ⟨_, _, rfl⟩
  · exact ⟨_, _, rfl⟩

theorem dropWhile_toBase64 {xs : List Nat} (h : xs ≠ []) (S : List Char) :
    List.dropWhile rsWhitespace (to_base64 xs ++ S) = to_base64 xs ++ S := by
  obtain ⟨v, t, ht⟩ := toBase64Main_zero_head xs h
  rw [to_base64, ht, List.cons_append]
  exact dropWhile_cons_of_neg ((b64Char_facts v).2.2.2)

theorem to_base64_crlf_no_dash {xs : List Nat} :
    ∀ c ∈ to_base64 xs ++ crlf, c ≠ '-' := by
  intro c hc
  rcases List.mem_append.mp hc with h | h
  · exact toBase64Main_no_dash c h
  · simp [crlf] at h
    rcases h with h | h <;> simp [h]

/-- The leftmost framing match inside `encode p ++ rest`: the begin and end
capture groups are exactly the tag, the data capture is the base64 block
followed by CRLF (empty for empty contents), and matching resumes after the
whitespace following the END delimiter. -/
theorem findCaptures_encode (p : Pem) (rest : List Char)
    (h2 : occursIn dashes5 p.tag = false) (h3 : p.tag.getLast? ≠ some '-') :
    findCaptures (encode p ++ rest)
      = some ({ beginTag := p.tag,
                dataRegion :=
                  if p.contents = [] then [] else to_base64 p.contents ++ crlf,
                endTag := p.tag },
              List.dropWhile rsWhitespace rest) := by
  have hws : ∀ c ∈ crlf, rsWhitespace c = true := by decide
  have henc : encode p ++ rest
      = beginMark ++ (p.tag ++ (dashes5 ++ (crlf ++
          ((if p.contents = [] then [] else to_base64 p.contents) ++ (crlf ++
            (endMark ++ (p.tag ++ (dashes5 ++ (crlf ++ rest))))))))) := by
    simp [encode, List.append_assoc]
  rw [henc, findCaptures]
  rw [splitOnce_here (by decide)]
  simp only [Option.some_bind]
  rw [splitOnce_tag_mid2 _ h2 h3]
  simp only [Option.some_bind]
  rw [dropWhile_append_of_all hws]
  by_cases hemp : p.contents = []
  · rw [if_pos hemp, List.nil_append, dropWhile_append_of_all hws]
    rw [show endMark = '-' :: ['-', '-', '-', '-', 'E', 'N', 'D', ' '] from rfl]
    rw [List.cons_append, dropWhile_cons_of_neg (by decide), ← List.cons_append]
    rw [splitOnce_here (by decide)]
    simp only [Option.some_bind]
    rw [splitOnce_tag_mid2 _ h2 h3]
    simp only [Option.map_some']
    rw [dropWhile_append_of_all hws]
    rw [if_pos hemp]
  · rw [if_neg hemp]
    rw [dropWhile_toBase64 hemp]
    rw [← List.append_assoc]
    rw [show endMark = '-' :: ['-', '-', '-', '-', 'E', 'N', 'D', ' '] from rfl]
    rw [splitOnce_head_notMem2 to_base64_crlf_no_dash]
    simp only [Option.some_bind]
    rw [splitOnce_tag_mid2 _ h2 h3]
    simp only [Option.map_some']
    rw [dropWhile_append_of_all hws]
    rw [if_neg hemp]

/-! ### Round trips -/

theorem mem_of_mem_removeAll {c x : Char} {s : List Char}
    (h : x ∈ removeAll c s) : x ∈ s := by
  induction s with
  | nil => simpa [removeAll] using h
  | cons a t ih =>
    rw [removeAll] at h
    by_cases hac : a = c
    · rw [if_pos hac] at h
      exact List.mem_cons_of_mem _ (ih h)
    · rw [if_neg hac] at h
      rcases List.mem_cons.mp h with h | h
      · simp [h]
      · exact List.mem_cons_of_mem _ (ih h)

theorem new_from_captures_encode (p : Pem) (h1 : p.tag ≠ [])
    (h4 : ∀ x ∈ p.contents, x < 256) :
    new_from_captures
      { beginTag := p.tag,
        dataRegion := if p.contents = [] then [] else to_base64 p.contents ++ crlf,
        endTag := p.tag }
      = .ok p := by
  simp only [new_from_captures]
  rw [if_neg h1, if_neg h1, if_neg (show ¬ p.tag ≠ p.tag by simp)]
  by_cases hemp : p.contents = []
  · rw [if_pos hemp]
    rw [show removeAll '\n' ([] : List Char) = [] from rfl,
      show removeAll ' ' ([] : List Char) = [] from rfl,
      show from_base64 [] = .ok [] from rfl]
    cases p with
    | mk tg ct =>
      simp at hemp
      simp [hemp]
  · rw [if_neg hemp]
    rw [removeAll_append, show removeAll '\n' crlf = ['\r'] from by decide]
    rw [removeAll_of_notMem (by
      intro x hx
      rcases List.mem_append.mp hx with h | h
      · exact toBase64Main_no_space x (mem_of_mem_removeAll h)
      · simp at h
        simp [h])]
    rw [show to_base64 p.contents = toBase64Main p.contents 0 from rfl]
    rw [from_base64, b64_decode_encode p.contents h4 0 0 []]
    cases p with
    | mk tg ct => simp

/-- Round trip for a single block: hypotheses are exactly the conditions
under which the tag survives the framing search. -/
theorem parse_encode_ok (p : Pem) (h1 : p.tag ≠ [])
    (h2 : occursIn dashes5 p.tag = false) (h3 : p.tag.getLast? ≠ some '-')
    (h4 : ∀ x ∈ p.contents, x < 256) :
    parse (encode p) = .ok p := by
  rw [parse]
  rw [show encode p = encode p ++ [] from (List.append_nil _).symm]
  rw [findCaptures_encode p [] h2 h3]
  exact new_from_captures_encode p h1 h4

theorem parse_many_step {s : List Char} {caps : Captures} {rest : List Char}
    (h : findCaptures s = some (caps, rest)) :
    parse_many s
      = (match new_from_captures caps with
         | .ok p => p :: parse_many rest
         | .error _ => parse_many rest) := by
  have hlt := findCaptures_rest_length h
  rw [parse_many, parseManyFuel, h]
  have e : parseManyFuel s.length rest = parseManyFuel (rest.length + 1) rest :=
    parseManyFuel_congr (by omega) (by omega)
  rw [parse_many]
  cases hc : new_from_captures caps <;> simp [e, hc]

theorem parse_many_step_none {s : List Char} (h : findCaptures s = none) :
    parse_many s = [] := by
  rw [parse_many, parseManyFuel, h]

theorem findAllCaptures_step {s : List Char} {caps : Captures} {rest : List Char}
    (h : findCaptures s = some (caps, rest)) :
    findAllCaptures s = caps :: findAllCaptures rest := by
  have hlt := findCaptures_rest_length h
  rw [findAllCaptures, findAllCapturesFuel, h]
  have e : findAllCapturesFuel s.length rest
      = findAllCapturesFuel (rest.length + 1) rest :=
    findAllCapturesFuel_congr (by omega) (by omega)
  rw [findAllCaptures]
  simp [e]

theorem findAllCaptures_step_none {s : List Char} (h : findCaptures s = none) :
    findAllCaptures s = [] := by
  rw [findAllCaptures, findAllCapturesFuel, h]

theorem parse_many_nil : parse_many [] = [] :=
  parse_many_step_none (by decide)

theorem findAllCaptures_nil : findAllCaptures [] = [] :=
  findAllCaptures_step_none (by decide)

theorem intercalate_single (sep a : List Char) :
    List.intercalate sep [a] = a := by
  simp [List.intercalate]

theorem intercalate_cons2 (sep a b : List Char) (l : List (List Char)) :
    List.intercalate sep (a :: b :: l)
      = a ++ (sep ++ List.intercalate sep (b :: l)) := by
  simp [List.intercalate, List.intersperse_cons₂]

theorem encode_head (p : Pem) :
    ∃ t, encode p = '-' :: t := by
  rw [encode]
  exact ⟨_, rfl⟩

/-- Round trip for a batch of blocks. -/
theorem parse_many_encode_many_ok :
    ∀ (ps : List Pem),
      (∀ p ∈ ps, p.tag ≠ [] ∧ occursIn dashes5 p.tag = false ∧
        p.tag.getLast? ≠ some '-' ∧ ∀ x ∈ p.contents, x < 256) →
      parse_many (encode_many ps) = ps := by
  intro ps
  induction ps with
  | nil =>
    intro _
    rw [encode_many]
    simp [List.intercalate]
    exact parse_many_nil
  | cons q ps' ih =>
    intro hall
    obtain ⟨hq1, hq2, hq3, hq4⟩ := hall q (by simp)
    cases ps' with
    | nil =>
      rw [encode_many, List.map_cons, List.map_nil, intercalate_single]
      have hf := findCaptures_encode q [] hq2 hq3
      rw [List.append_nil] at hf
      rw [parse_many_step hf, new_from_captures_encode q hq1 hq4]
      rw [show List.dropWhile rsWhitespace [] = [] from rfl, parse_many_nil]
    | cons r ps'' =>
      rw [encode_many, List.map_cons, List.map_cons, intercalate_cons2]
      have hf := findCaptures_encode q
        (crlf ++ List.intercalate crlf (encode r :: List.map encode ps'')) hq2 hq3
      rw [parse_many_step hf, new_from_captures_encode q hq1 hq4]
      have hws : ∀ c ∈ crlf, rsWhitespace c = true := by decide
      rw [dropWhile_append_of_all hws]
      obtain ⟨t0, ht0⟩ := encode_head r
      have hdw : List.dropWhile rsWhitespace
          (List.intercalate crlf (encode r :: List.map encode ps''))
            = List.intercalate crlf (encode r :: List.map encode ps'') := by
        cases ps'' with
        | nil =>
          rw [List.map_nil, intercalate_single, ht0]
          exact dropWhile_cons_of_neg (by decide)
        | cons u ps3 =>
          rw [List.map_cons, intercalate_cons2, ht0, List.cons_append]
          exact dropWhile_cons_of_neg (by decide)
      have ih2 := ih (fun p hp => hall p (by simp [hp]))
      rw [encode_many, List.map_cons] at ih2
      rw [hdw, ih2]

/-! ### Line wrapping: the encoded stream is the unwrapped base64 stream
cut into 64-character lines joined by CRLF -/

/-- Standard padded base64 without line wrapping (what `to_base64` would
emit with `line_length: None`). -/
def toBase64Flat : List Nat → List Char
  | a :: b :: c :: t => toB64Group3 a b c ++ toBase64Flat t
  | [a] =>
    let n := (a % 256) <<< 16
    [b64Char ((n >>> 18) % 64), b64Char ((n >>> 12) % 64), '=', '=']
  | [a, b] =>
    let n := ((a % 256) <<< 16) ||| ((b % 256) <<< 8)
    [b64Char ((n >>> 18) % 64), b64Char ((n >>> 12) % 64),
     b64Char ((n >>> 6) % 64), '=']
  | [] => []

/-- Cutting a character stream into chunks of 64. -/
def chunks64 (s : List Char) : List (List Char) :=
  if h : s = [] then [] else s.take 64 :: chunks64 (s.drop 64)
termination_by s.length
decreasing_by
  have h0 : s.length ≠ 0 := fun h0 => h (List.eq_nil_of_length_eq_zero h0)
  simp [List.length_drop]
  omega

theorem chunks64_nil : chunks64 [] = [] := by
  rw [chunks64.eq_def]
  rfl

theorem chunks64_of_ne {s : List Char} (h : s ≠ []) :
    chunks64 s = s.take 64 :: chunks64 (s.drop 64) := by
  rw [chunks64.eq_def, dif_neg h]

theorem toBase64Flat_length :
    ∀ xs : List Nat, (toBase64Flat xs).length = 4 * ((xs.length + 2) / 3) := by
  intro xs
  induction xs using threeStepInduction with
  | h0 => rfl
  | h1 a => simp [toBase64Flat]
  | h2 a b => simp [toBase64Flat]
  | h3 a b c t ih =>
    rw [toBase64Flat, List.length_append, ih]
    simp [toB64Group3]
    omega

theorem toBase64Flat_append :
    ∀ (xs ys : List Nat), xs.length % 3 = 0 →
      toBase64Flat (xs ++ ys) = toBase64Flat xs ++ toBase64Flat ys := by
  intro xs
  induction xs using threeStepInduction with
  | h0 => intro ys _; simp [toBase64Flat]
  | h1 a => intro ys h; simp at h
  | h2 a b => intro ys h; simp at h
  | h3 a b c t ih =>
    intro ys h
    simp at h
    rw [List.cons_append, List.cons_append, List.cons_append]
    rw [toBase64Flat, toBase64Flat, ih ys (by omega), List.append_assoc]

theorem toBase64Main_64 :
    ∀ t : List Nat, t ≠ [] → toBase64Main t 64 = '\r' :: '\n' :: toBase64Main t 0 := by
  intro t ht
  rcases t with _ | ⟨x, _ | ⟨y, _ | ⟨z, t'⟩⟩⟩
  · exact absurd rfl ht
  · rw [toBase64Main, toBase64Main, if_pos (by omega), if_neg (by omega)]
    rfl
  · rw [toBase64Main, toBase64Main, if_pos (by omega), if_neg (by omega)]
    rfl
  · rw [toBase64Main, toBase64Main, if_pos (by omega), if_neg (by omega)]

theorem toBase64Main_structure :
    ∀ (xs : List Nat) (g : Nat), 1 ≤ g → g ≤ 16 →
      toBase64Main xs (64 - 4 * g)
        = if xs.length ≤ 3 * g then toBase64Flat xs
          else toBase64Flat (xs.take (3 * g))
              ++ ('\r' :: '\n' :: toBase64Main (xs.drop (3 * g)) 0) := by
  intro xs
  induction xs using threeStepInduction with
  | h0 =>
    intro g h1 h2
    rw [if_pos (by simp)]
    rfl
  | h1 a =>
    intro g h1 h2
    rw [if_pos (by simp; omega)]
    rw [toBase64Main, if_neg (by omega)]
    rw [toBase64Flat, List.nil_append]
  | h2 a b =>
    intro g h1 h2
    rw [if_pos (by simp; omega)]
    rw [toBase64Main, if_neg (by omega)]
    rw [toBase64Flat, List.nil_append]
  | h3 a b c t ih =>
    intro g h1 h2
    rcases Nat.lt_or_ge g 2 with hg1 | hg2
    · have hg : g = 1 := by omega
      subst hg
      rw [toBase64Main, if_neg (by omega)]
      rw [show 64 - 4 * 1 + 4 = 64 from rfl]
      rcases eq_or_ne t [] with rfl | hne
      · rw [if_pos (by simp)]
        rw [show toBase64Main [] 64 = [] from rfl]
        rw [show toBase64Flat [a, b, c] = toB64Group3 a b c ++ toBase64Flat [] from rfl]
        rfl
      · rw [toBase64Main_64 t hne]
        rw [if_neg (by
          simp
          rcases t with _ | ⟨u, t2⟩
          · exact absurd rfl hne
          · simp)]
        rw [show (3 : Nat) * 1 = 3 from rfl]
        rw [show (a :: b :: c :: t).take 3 = [a, b, c] from rfl]
        rw [show (a :: b :: c :: t).drop 3 = t from rfl]
        rw [show toBase64Flat [a, b, c] = toB64Group3 a b c ++ toBase64Flat [] from rfl]
        simp [toBase64Flat]
    · have hcur : ¬ 62 ≤ 64 - 4 * g := by omega
      rw [toBase64Main, if_neg hcur]
      rw [show 64 - 4 * g + 4 = 64 - 4 * (g - 1) from by omega]
      rw [ih (g - 1) (by omega) (by omega)]
      have h33 : 3 * (g - 1) = 3 * g - 3 := by omega
      by_cases hlen : t.length ≤ 3 * (g - 1)
      · rw [if_pos hlen, if_pos (by simp; omega)]
        rw [show toBase64Flat (a :: b :: c :: t)
          = toB64Group3 a b c ++ toBase64Flat t from rfl]
      · rw [if_neg hlen, if_neg (by simp; omega)]
        have ht : (a :: b :: c :: t).take (3 * g) = a :: b :: c :: t.take (3 * (g - 1)) := by
          rw [show 3 * g = 3 * (g - 1) + 1 + 1 + 1 from by omega]
          rfl
        have hd : (a :: b :: c :: t).drop (3 * g) = t.drop (3 * (g - 1)) := by
          rw [show 3 * g = 3 * (g - 1) + 1 + 1 + 1 from by omega]
          rfl
        rw [ht, hd]
        rw [show toBase64Flat (a :: b :: c :: t.take (3 * (g - 1)))
          = toB64Group3 a b c ++ toBase64Flat (t.take (3 * (g - 1))) from rfl]
        rw [List.append_assoc]

theorem toBase64Flat_ne_nil {xs : List Nat} (h : xs ≠ []) :
    toBase64Flat xs ≠ [] := by
  intro hc
  have := toBase64Flat_length xs
  rw [hc] at this
  simp at this
  rcases xs with _ | ⟨a, t⟩
  · exact absurd rfl h
  · simp at this
    omega

/-- `to_base64` equals the unwrapped stream cut into 64-character lines
joined with CRLF. -/
theorem to_base64_wrap (xs : List Nat) :
    to_base64 xs = List.intercalate crlf (chunks64 (toBase64Flat xs)) := by
  generalize hn : xs.length = n
  induction n using Nat.strong_induction_on generalizing xs with
  | _ n ih =>
  subst hn
  have h16 := toBase64Main_structure xs 16 (by omega) (by omega)
  rw [show 64 - 4 * 16 = 0 from rfl] at h16
  rw [to_base64, h16]
  by_cases hle : xs.length ≤ 3 * 16
  · rw [if_pos hle]
    rcases eq_or_ne (toBase64Flat xs) [] with hnil | hne
    · rw [hnil, chunks64_nil]
      rfl
    · rw [chunks64_of_ne hne]
      have hlen : (toBase64Flat xs).length ≤ 64 := by
        rw [toBase64Flat_length]
        omega
      rw [List.take_of_length_le hlen, List.drop_of_length_le hlen, chunks64_nil]
      rw [intercalate_single]
  · rw [if_neg hle]
    have hxs : xs.take 48 ++ xs.drop 48 = xs := List.take_append_drop 48 xs
    have htl : (xs.take 48).length = 48 := by
      rw [List.length_take]
      omega
    have hsplit : toBase64Flat xs = toBase64Flat (xs.take 48) ++ toBase64Flat (xs.drop 48) := by
      conv_lhs => rw [← hxs]
      exact toBase64Flat_append _ _ (by rw [htl])
    have hlen48 : (toBase64Flat (xs.take 48)).length = 64 := by
      rw [toBase64Flat_length, htl]
    have hdne : xs.drop 48 ≠ [] := by
      intro hc
      have := congrArg List.length hc
      simp [List.length_drop] at this
      omega
    have hBne : toBase64Flat (xs.drop 48) ≠ [] := toBase64Flat_ne_nil hdne
    rw [hsplit, chunks64_of_ne (by
      intro hc
      have := congrArg List.length hc
      rw [List.length_append, hlen48] at this
      simp at this)]
    rw [List.take_left' hlen48, List.drop_left' hlen48]
    have ih2 := ih (xs.drop 48).length (by simp [List.length_drop]; omega) (xs.drop 48) rfl
    rw [to_base64] at ih2
    rw [show (3 : Nat) * 16 = 48 from rfl]
    obtain ⟨C, CS, hC⟩ : ∃ C CS, chunks64 (toBase64Flat (xs.drop 48)) = C :: CS := by
      rw [chunks64_of_ne hBne]
      exact ⟨_, _, rfl⟩
    rw [hC, intercalate_cons2, ← hC, ← ih2]
    rfl

/-! ### Remaining supporting lemmas -/

instance : DecidableEq (Except PemError Pem) := fun a b =>
  match a, b with
  | .ok x, .ok y =>
    if h : x = y then .isTrue (by rw [h])
    else .isFalse (fun hc => h (by injection hc))
  | .error x, .error y =>
    if h : x = y then .isTrue (by rw [h])
    else .isFalse (fun hc => h (by injection hc))
  | .ok _, .error _ => .isFalse (fun hc => Except.noConfusion hc)
  | .error _, .ok _ => .isFalse (fun hc => Except.noConfusion hc)

theorem parse_many_eq_filterMap (s : List Char) :
    parse_many s
      = (findAllCaptures s).filterMap
          (fun caps => (new_from_captures caps).toOption) := by
  generalize hn : s.length = n
  induction n using Nat.strong_induction_on generalizing s with
  | _ n ih =>
  subst hn
  cases hf : findCaptures s with
  | none =>
    rw [parse_many_step_none hf, findAllCaptures_step_none hf]
    rfl
  | some pr =>
    obtain ⟨caps, rest⟩ := pr
    have hlt := findCaptures_rest_length hf
    rw [parse_many_step hf, findAllCaptures_step hf, List.filterMap_cons]
    have e := ih rest.length (by omega) rest rfl
    cases hc : new_from_captures caps <;> simp [hc, Except.toOption, e]

theorem new_from_captures_ne_malformed (caps : Captures) :
    new_from_captures caps ≠ .error .malformedFraming := by
  rw [new_from_captures]
  by_cases h1 : caps.beginTag = []
  · simp [h1]
  · rw [if_neg h1]
    by_cases h2 : caps.endTag = []
    · simp [h2]
    · rw [if_neg h2]
      by_cases h3 : caps.beginTag ≠ caps.endTag
      · simp [h3]
      · rw [if_neg h3]
        cases from_base64 (removeAll ' ' (removeAll '\n' caps.dataRegion)) <;> simp

theorem removeAll_eq_filter (dt : List Char) :
    removeAll ' ' (removeAll '\n' dt)
      = dt.filter fun c => c != '\n' && c != ' ' := by
  induction dt with
  | nil => rfl
  | cons c t ih =>
    by_cases hn : c = '\n'
    · rw [removeAll, if_pos hn]
      rw [List.filter_cons]
      rw [if_neg (by simp [hn])]
      exact ih
    · rw [removeAll, if_neg hn]
      by_cases hs : c = ' '
      · rw [removeAll, if_pos hs]
        rw [List.filter_cons, if_neg (by simp [hs])]
        exact ih
      · rw [removeAll, if_neg hs]
        rw [List.filter_cons, if_pos (by simp [hn, hs])]
        rw [ih]

/-! ### The claims -/

/-- C1, counterexample: the claim as stated is false.  The tag `A-` is
non-empty and free of the delimiter substring `-----`, yet
`parse (encode p)` does not return `p`: the trailing dash of the tag merges
with the appended delimiter, the framing match captures tag `A` and a data
region containing a stray dash, and decoding fails with an invalid base64
length. -/
theorem claim_C1_counterexample :
    (['A', '-'] ≠ [] ∧ occursIn dashes5 ['A', '-'] = false) ∧
    parse (encode { tag := ['A', '-'], contents := [] })
      = .error (.invalidData .invalidLength) ∧
    parse (encode { tag := ['A', '-'], contents := [] })
      ≠ .ok { tag := ['A', '-'], contents := [] } :=
  ⟨⟨by decide, by decide⟩, by decide, by decide⟩

/-- C1 (amended): for every `Pem` whose tag is non-empty, contains no
occurrence of the delimiter `-----`, and does not end with a dash (the
extra condition the counterexample forces: a trailing dash merges with the
appended delimiter), and whose contents are bytes,
`parse (encode p)` succeeds and returns `p`, including for empty
contents. -/
theorem claim_C1 (p : Pem) (h1 : p.tag ≠ [])
    (h2 : occursIn dashes5 p.tag = false) (h3 : p.tag.getLast? ≠ some '-')
    (h4 : ∀ x ∈ p.contents, x < 256) :
    parse (encode p) = .ok p :=
  parse_encode_ok p h1 h2 h3 h4

theorem claim_C1_witness :
    ((str "RSA PRIVATE KEY" ≠ [] ∧
        occursIn dashes5 (str "RSA PRIVATE KEY") = false ∧
        (str "RSA PRIVATE KEY").getLast? ≠ some '-') ∧
      ∀ x ∈ [0, 1, 127, 255], x < 256) ∧
    parse (encode { tag := str "RSA PRIVATE KEY", contents := [0, 1, 127, 255] })
      = .ok { tag := str "RSA PRIVATE KEY", contents := [0, 1, 127, 255] } :=
  ⟨⟨⟨by decide, by decide, by decide⟩, by decide⟩,
    claim_C1 _ (by decide) (by decide) (by decide) (by decide)⟩

/-- C2: batch round trip.  "Contains no delimiter-breaking substring" is
formalised as: the tag has no occurrence of `-----` and does not end with a
dash (a trailing dash merges with the appended delimiter and breaks it);
under that condition `parse_many (encode_many ps) = ps` for arbitrary byte
contents, including empty. -/
theorem claim_C2 (ps : List Pem)
    (h : ∀ p ∈ ps, p.tag ≠ [] ∧ occursIn dashes5 p.tag = false ∧
      p.tag.getLast? ≠ some '-' ∧ ∀ x ∈ p.contents, x < 256) :
    parse_many (encode_many ps) = ps :=
  parse_many_encode_many_ok ps h

theorem claim_C2_witness :
    (∀ p ∈ [Pem.mk (str "CERT") [10, 20, 30, 40], Pem.mk (str "KEY") []],
      p.tag ≠ [] ∧ occursIn dashes5 p.tag = false ∧
        p.tag.getLast? ≠ some '-' ∧ ∀ x ∈ p.contents, x < 256) ∧
    parse_many (encode_many
        [Pem.mk (str "CERT") [10, 20, 30, 40], Pem.mk (str "KEY") []])
      = [Pem.mk (str "CERT") [10, 20, 30, 40], Pem.mk (str "KEY") []] :=
  ⟨by decide, claim_C2 _ (by decide)⟩

/-- C3: `parse_many` never returns an error — it is total into a list and
equals, for every input, the left-to-right list of framing matches with
each match decoded and the failures silently dropped; in particular, on an
input holding one well-formed block and one block with mismatched tags it
returns exactly the well-formed entity. -/
theorem claim_C3 :
    (∀ s : List Char,
      parse_many s
        = (findAllCaptures s).filterMap
            fun caps => (new_from_captures caps).toOption) ∧
    parse_many (str "-----BEGIN A-----\r\nQUJD\r\n-----END A-----\r\n-----BEGIN B-----\r\nQUJD\r\n-----END C-----\r\n")
      = [{ tag := str "A", contents := [65, 66, 67] }] :=
  ⟨parse_many_eq_filterMap, by decide⟩

/-- C4: `parse` fails with `MalformedFraming` exactly when the framing
pattern matches nowhere in the input; when a match exists, the result is a
decoded `Pem` or one of the other error kinds, never `MalformedFraming`. -/
theorem claim_C4 (s : List Char) :
    parse s = .error .malformedFraming ↔ findCaptures s = none := by
  constructor
  · intro h
    cases hf : findCaptures s with
    | none => rfl
    | some pr =>
      obtain ⟨caps, rest⟩ := pr
      rw [parse, hf] at h
      exact absurd h (new_from_captures_ne_malformed caps)
  · intro h
    rw [parse, h]

/-- C5: the section decoder checks in strict short-circuit order: empty
begin tag fails with `MissingBeginTag` before any end-tag check (also when
the end tag is empty or different), then empty end tag fails with
`MissingEndTag`, then unequal tags fail with `MismatchedTags` carrying both
original tags (case- and whitespace-sensitive, as list equality is), and
only then is the data region decoded.  The two `parse` runs exhibit the
begin-before-end order and the `MismatchedTags("A", "B")` payload. -/
theorem claim_C5 :
    (∀ bt dt et : List Char,
      new_from_captures { beginTag := bt, dataRegion := dt, endTag := et }
        = if bt = [] then .error .missingBeginTag
          else if et = [] then .error .missingEndTag
          else if bt ≠ et then .error (.mismatchedTags bt et)
          else
            match from_base64 (removeAll ' ' (removeAll '\n' dt)) with
            | .error e => .error (.invalidData e)
            | .ok contents => .ok { tag := bt, contents := contents }) ∧
    parse (str "-----BEGIN -----\r\nQUJD\r\n-----END -----")
      = .error .missingBeginTag ∧
    parse (str "-----BEGIN -----\r\nQUJD\r\n-----END X-----")
      = .error .missingBeginTag ∧
    parse (str "-----BEGIN A-----\r\nQUJD\r\n-----END B-----")
      = .error (.mismatchedTags (str "A") (str "B")) :=
  ⟨fun bt dt et => rfl, by decide, by decide, by decide⟩

/-- C6, counterexample: the claim asserts that stray `\r` characters left
in the data region (e.g. from CRLF line endings) break the base64 decode;
in fact `from_base64` skips `\r` and `\n`, so a data region with CRLF line
endings decodes successfully. -/
theorem claim_C6_counterexample :
    parse (str "-----BEGIN A-----\nQUJD\r\nRUZH\r\n-----END A-----")
      = .ok { tag := str "A", contents := [65, 66, 67, 69, 70, 71] } := by
  decide

/-- C6 (amended): before decoding, exactly the newline (`\n`) and space
characters are removed from the data region and no others; a tab (or any
character outside the decoder's accepted set, e.g. `?`) left in the data
region makes `parse` fail with `InvalidData` wrapping the decode error —
but a stray `\r` does not, because the base64 decoder skips CR and LF. -/
theorem claim_C6 :
    (∀ dt : List Char,
      removeAll ' ' (removeAll '\n' dt)
        = dt.filter fun c => c != '\n' && c != ' ') ∧
    parse (str "-----BEGIN A-----\r\nQU\tJD\r\n-----END A-----")
      = .error (.invalidData (.invalidByte '\t' 2)) ∧
    parse (str "-----BEGIN A-----\r\nQUJ?\r\n-----END A-----")
      = .error (.invalidData (.invalidByte '?' 3)) ∧
    parse (str "-----BEGIN B-----\nQQ==\r\n-----END B-----")
      = .ok { tag := str "B", contents := [65] } :=
  ⟨removeAll_eq_filter, by decide, by decide, by decide⟩

/-- C7: `encode` always succeeds (it is a total function) and produces
exactly `-----BEGIN <tag>-----\r\n<data>\r\n-----END <tag>-----\r\n` with
CRLF line endings and the tag inserted verbatim, where the data line is
empty for empty contents and otherwise the standard-alphabet padded base64
of the contents hard-wrapped into 64-character lines (the crate's
`line_length: 62` configuration breaks before the group that would pass
column 62). -/
theorem claim_C7 (p : Pem) :
    encode p
      = beginMark ++ p.tag ++ dashes5 ++ crlf
          ++ (if p.contents = [] then []
              else List.intercalate crlf (chunks64 (toBase64Flat p.contents)))
          ++ crlf ++ endMark ++ p.tag ++ dashes5 ++ crlf := by
  rcases eq_or_ne p.contents [] with h | h
  · simp [encode, h]
  · simp [encode, h, to_base64_wrap]

/-- C8: every input framed as a single block with equal non-empty tags and
a whitespace-only (in particular empty) data region parses successfully to
a `Pem` with contents of length 0. -/
theorem claim_C8 (tag ws suffix : List Char) (h1 : tag ≠ [])
    (h2 : occursIn dashes5 tag = false) (h3 : tag.getLast? ≠ some '-')
    (hws : ∀ c ∈ ws, rsWhitespace c = true) :
    parse (beginMark ++ tag ++ dashes5 ++ ws ++ endMark ++ tag ++ dashes5 ++ suffix)
      = .ok { tag := tag, contents := [] } := by
  have heq : beginMark ++ tag ++ dashes5 ++ ws ++ endMark ++ tag ++ dashes5 ++ suffix
      = beginMark ++ (tag ++ (dashes5 ++ (ws
          ++ (endMark ++ (tag ++ (dashes5 ++ suffix)))))) := by
    simp [List.append_assoc]
  rw [parse, heq, findCaptures]
  rw [splitOnce_here (by decide)]
  simp only [Option.some_bind]
  rw [splitOnce_tag_mid2 _ h2 h3]
  simp only [Option.some_bind]
  rw [dropWhile_append_of_all hws]
  rw [show endMark = '-' :: ['-', '-', '-', '-', 'E', 'N', 'D', ' '] from rfl]
  rw [List.cons_append, dropWhile_cons_of_neg (by decide), ← List.cons_append]
  rw [splitOnce_here (by decide)]
  simp only [Option.some_bind]
  rw [splitOnce_tag_mid2 _ h2 h3]
  simp only [Option.map_some']
  rw [new_from_captures]
  rw [if_neg h1, if_neg h1, if_neg (show ¬ tag ≠ tag by simp)]
  rfl

theorem claim_C8_witness :
    ((str "DATA" ≠ [] ∧ occursIn dashes5 (str "DATA") = false ∧
        (str "DATA").getLast? ≠ some '-') ∧
      ∀ c ∈ ['\n'], rsWhitespace c = true) ∧
    parse (beginMark ++ str "DATA" ++ dashes5 ++ ['\n']
        ++ endMark ++ str "DATA" ++ dashes5 ++ [])
      = .ok { tag := str "DATA", contents := [] } :=
  ⟨⟨⟨by decide, by decide, by decide⟩, by decide⟩,
    claim_C8 (str "DATA") ['\n'] [] (by decide) (by decide) (by decide) (by decide)⟩

/-- C9: `parse` decodes exactly the first framing match: whenever it
succeeds, `parse_many` on the same input is non-empty and starts with the
same entity; and when the first matched block fails to decode, `parse`
returns that block's error even though a later block decodes successfully
(as `parse_many`'s result on the same input shows). -/
theorem claim_C9 :
    (∀ (s : List Char) (p : Pem), parse s = .ok p →
      (parse_many s).head? = some p) ∧
    parse (str "-----BEGIN A-----\r\nQUJD\r\n-----END B-----\r\n-----BEGIN C-----\r\nQUJD\r\n-----END C-----\r\n")
      = .error (.mismatchedTags (str "A") (str "B")) ∧
    parse_many (str "-----BEGIN A-----\r\nQUJD\r\n-----END B-----\r\n-----BEGIN C-----\r\nQUJD\r\n-----END C-----\r\n")
      = [{ tag := str "C", contents := [65, 66, 67] }] := by
  refine ⟨?_, by decide, by decide⟩
  intro s p h
  cases hf : findCaptures s with
  | none =>
    rw [parse, hf] at h
    exact absurd h (by simp)
  | some pr =>
    obtain ⟨caps, rest⟩ := pr
    rw [parse, hf] at h
    simp only [] at h
    rw [parse_many_step hf, h]
    rfl

theorem claim_C9_witness :
    parse (str "-----BEGIN A-----\r\nQUJD\r\n-----END A-----")
      = .ok { tag := str "A", contents := [65, 66, 67] } ∧
    (parse_many (str "-----BEGIN A-----\r\nQUJD\r\n-----END A-----")).head?
      = some { tag := str "A", contents := [65, 66, 67] } :=
  ⟨by decide, claim_C9.1 _ _ (by decide)⟩

/-- C10: `encode_many` of the empty sequence is the empty string, and
`parse_many` of any input in which the framing pattern matches nowhere
(including the empty string) is the empty sequence. -/
theorem claim_C10 :
    encode_many [] = [] ∧ parse_many [] = [] ∧
    (∀ s : List Char, findCaptures s = none → parse_many s = []) :=
  ⟨rfl, parse_many_nil, fun _ h => parse_many_step_none h⟩

theorem claim_C10_witness :
    findCaptures (str "no pem content here") = none ∧
    parse_many (str "no pem content here") = [] :=
  ⟨by decide, claim_C10.2.2 _ (by decide)⟩

end Pemrs
